import Mathlib

/-!
Verification of the type-directed value encoder in
src/cmd/extrinsics/transcode/encode.rs of cargo-contract.

The encoder walks a schema tree of type definitions (scale-info, compact
form, where nested types are referred to by numeric ids resolved through a
read-only registry) together with a dynamic value tree (ron values) and
appends SCALE-encoded bytes to an append-only output sink.

Modelling conventions:
- machine integers are Nat/Int with explicit range checks;
- the ron integer payload (an i64 in the source) is an Int;
- the output sink is threaded explicitly as a List Nat of bytes in 0..256;
- fallible paths return an explicit result (EncResult) whose error labels
  follow the error taxonomy of the specification, one label per anyhow
  error site of the source;
- the unimplemented! macro invocations of the source abort the process
  rather than returning; they are modelled by the dedicated result
  EncResult.aborted.
-/

namespace CargoContract

/-- ron::Number. The Integer payload is an i64 in the source. -/
inductive Number where
  | int (i : Int)
  | float (f : Float)

/-- ron::Value, the dynamic value tree. The map variant keeps its entries as
an ordered list of key-value pairs; the encoder only ever reads the values,
in order, mirroring map.values() in the source. -/
inductive Value where
  | bool (b : Bool)
  | char (c : Char)
  | map (entries : List (Value × Value))
  | num (n : Number)
  | opt (o : Option Value)
  | str (s : String)
  | seq (vs : List Value)
  | unit

/-- scale_info::TypeDefPrimitive. -/
inductive TypeDefPrimitive where
  | Bool
  | Char
  | Str
  | U8
  | U16
  | U32
  | U64
  | U128
  | U256
  | I8
  | I16
  | I32
  | I64
  | I128
  | I256
deriving DecidableEq

/-- scale_info::Field in compact form: an optional name and a numeric type id
resolved through the registry. -/
structure Field where
  name : Option String
  ty : Nat
deriving DecidableEq

/-- scale_info::TypeDefArray in compact form: a length and the element type id.
Only the element type id is read by the encoder. -/
structure TypeDefArray where
  len : Nat
  type_param : Nat
deriving DecidableEq

/-- scale_info::TypeDefComposite in compact form: the ordered field list. -/
structure TypeDefComposite where
  fields : List Field
deriving DecidableEq

/-- scale_info::TypeDef in compact form. The encoder implements Array,
Primitive and Composite; every other variant falls into the unimplemented!
catch-all. The payloads of the unimplemented variants are never read by the
encoder, so they are kept to what identifies them. -/
inductive TypeDef where
  | Composite (c : TypeDefComposite)
  | Variant
  | Sequence (type_param : Nat)
  | Array (a : TypeDefArray)
  | Tuple (fields : List Nat)
  | Primitive (p : TypeDefPrimitive)
  | Compact (type_param : Nat)
  | Phantom
deriving DecidableEq

/-- scale_info::Type in compact form; the encoder impl for it only delegates
to its type_def, so the other components are omitted. -/
structure Ty where
  type_def : TypeDef
deriving DecidableEq

/-- the read-only registry: a pure lookup from type id to type. -/
abbrev RegistryReadOnly := Nat → Option Ty

/-- Modelled from the spec: resolve_type comes from the enclosing transcode
module, which is not among the provided sources. Per the specification it is
a pure lookup that resolves a type id through the read-only registry and
fails (UnknownType) when the id is absent. -/
def resolve_type (registry : RegistryReadOnly) (id : Nat) : Option Ty :=
  registry id

/-- the error taxonomy of the specification; each label corresponds to one
anyhow error site of the source (see the encoder definitions below). -/
inductive EncodeError where
  | UnknownType
  | UnsupportedType
  | TypeMismatch
  | NumericConversion
  | NumericParse
  | HexDecodeError
deriving DecidableEq

/-- outcome of one encode call: success or a typed error, each carrying the
full content of the output sink after the call, or an abort of the whole
process (the unimplemented! macro in the source). -/
inductive EncResult where
  | ok (output : List Nat)
  | err (e : EncodeError) (output : List Nat)
  | aborted
deriving DecidableEq

/-- prepend bytes to the sink content recorded in a result; aborting has no
sink content. -/
def prependBytes (pre : List Nat) : EncResult → EncResult
  | .ok output => .ok (pre ++ output)
  | .err e output => .err e (pre ++ output)
  | .aborted => .aborted

/-- little-endian byte decomposition at a fixed byte width, as produced by
the SCALE encode_to of the fixed-width unsigned integers. -/
def leBytes : Nat → Nat → List Nat
  | 0, _ => []
  | w + 1, n => n % 256 :: leBytes w (n / 256)

/-- value of a little-endian byte list, inverse of leBytes on in-range
values (used to state that encoding neither wraps nor truncates). -/
def fromLEBytes : List Nat → Nat
  | [] => 0
  | b :: rest => b + 256 * fromLEBytes rest

/-- minimal number of bytes needed to store n (at least one). -/
def byteLen (n : Nat) : Nat :=
  if h : n < 256 then 1 else 1 + byteLen (n / 256)
decreasing_by exact Nat.div_lt_self (by omega) (by omega)

/-- SCALE compact encoding of a length, used by the string primitive before
its UTF-8 bytes. -/
def compactEncode (n : Nat) : List Nat :=
  if n < 64 then [n * 4]
  else if n < 2 ^ 14 then leBytes 2 (n * 4 + 1)
  else if n < 2 ^ 30 then leBytes 4 (n * 4 + 2)
  else ((byteLen n - 4) * 4 + 3) % 256 :: leBytes (byteLen n) n

/-- UTF-8 bytes of a string. -/
def utf8Bytes (s : String) : List Nat :=
  s.toUTF8.toList.map (fun b => b.toNat)

/-- SCALE encode_to of a string: compact length prefix then UTF-8 bytes. -/
def strScaleEncode (s : String) : List Nat :=
  compactEncode (utf8Bytes s).length ++ utf8Bytes s

/-- TryInto from the i64-valued ron integer into an unsigned bit width:
succeeds exactly when the value is representable. In the source the input is
an i64, so for the 64- and 128-bit targets only the sign check can fail. -/
def tryIntoUnsigned (bits : Nat) (i : Int) : Option Nat :=
  if 0 ≤ i ∧ i < 2 ^ bits then some i.toNat else none

/-- value of a single hexadecimal digit, upper or lower case. -/
def hexDigitVal (c : Char) : Option Nat :=
  if 48 ≤ c.toNat ∧ c.toNat ≤ 57 then some (c.toNat - 48)
  else if 97 ≤ c.toNat ∧ c.toNat ≤ 102 then some (c.toNat - 97 + 10)
  else if 65 ≤ c.toNat ∧ c.toNat ≤ 70 then some (c.toNat - 65 + 10)
  else none

/-- hex::decode — fails on odd length or any non-hex character, otherwise
turns each digit pair (high digit first) into one byte. -/
def hexDecodeChars : List Char → Option (List Nat)
  | [] => some []
  | [_] => none
  | c1 :: c2 :: rest =>
    match hexDigitVal c1, hexDigitVal c2, hexDecodeChars rest with
    | some hi, some lo, some tail => some ((hi * 16 + lo) :: tail)
    | _, _, _ => none

/-- str::trim_start_matches with the pattern 0x: removes every repeated
leading occurrence of the two-character prefix, not just the first. -/
def trimStartMatches0x : List Char → List Char
  | '0' :: 'x' :: rest => trimStartMatches0x rest
  | cs => cs

/-- str::replace of the characters underscore and comma by the empty string:
drops every occurrence of either separator. -/
def stripSeparators (cs : List Char) : List Char :=
  cs.filter (fun c => (c != '_') && (c != ','))

/-- optional leading plus sign accepted by the unsigned from_str parsers. -/
def stripPlus : List Char → List Char
  | '+' :: rest => rest
  | cs => cs

/-- decimal digit test. -/
def isDecDigit (c : Char) : Bool :=
  48 ≤ c.toNat && c.toNat ≤ 57

/-- numeric value of a list of decimal digits. -/
def decValue (cs : List Char) : Nat :=
  cs.foldl (fun acc c => acc * 10 + (c.toNat - 48)) 0

/-- core of the unsigned from_str parsers: an optional plus sign then one or
more decimal digits, nothing else. -/
def parseUnsignedDec (cs : List Char) : Option Nat :=
  let ds := stripPlus cs
  if ds = [] then none
  else if ds.all isDecDigit then some (decValue ds) else none

/-- u64::from_str and u128::from_str modelled at a given bit width: decimal
parse, where a value that does not fit the width is an overflow and also a
parse error in the source. -/
def uintFromStr (bits : Nat) (cs : List Char) : Option Nat :=
  match parseUnsignedDec cs with
  | some n => if n < 2 ^ bits then some n else none
  | none => none

/-- impl EncodeValue for TypeDefPrimitive (encode.rs lines 97-186). The
registry argument is ignored, as in the source. Error labels per branch:
Char is the not-implemented-for-char anyhow error (UnsupportedType per the
error taxonomy); a value of the wrong shape is TypeMismatch; a failing
TryInto is NumericConversion; a failing from_str is NumericParse; the
signed kinds and U256/I256 hit the unimplemented! catch-all and abort. -/
def TypeDefPrimitive.encodeValueTo (_registry : RegistryReadOnly)
    (p : TypeDefPrimitive) (value : Value) (output : List Nat) : EncResult :=
  match p with
  | .Bool =>
    match value with
    | .bool b => .ok (output ++ [if b then 1 else 0])
    | _ => .err .TypeMismatch output
  | .Char => .err .UnsupportedType output
  | .Str =>
    match value with
    | .str s => .ok (output ++ strScaleEncode s)
    | _ => .err .TypeMismatch output
  | .U8 =>
    match value with
    | .num (.int i) =>
      match tryIntoUnsigned 8 i with
      | some u => .ok (output ++ leBytes 1 u)
      | none => .err .NumericConversion output
    | _ => .err .TypeMismatch output
  | .U16 =>
    match value with
    | .num (.int i) =>
      match tryIntoUnsigned 16 i with
      | some u => .ok (output ++ leBytes 2 u)
      | none => .err .NumericConversion output
    | _ => .err .TypeMismatch output
  | .U32 =>
    match value with
    | .num (.int i) =>
      match tryIntoUnsigned 32 i with
      | some u => .ok (output ++ leBytes 4 u)
      | none => .err .NumericConversion output
    | _ => .err .TypeMismatch output
  | .U64 =>
    match value with
    | .num (.int i) =>
      match tryIntoUnsigned 64 i with
      | some u => .ok (output ++ leBytes 8 u)
      | none => .err .NumericConversion output
    | .str s =>
      match uintFromStr 64 (stripSeparators s.data) with
      | some u => .ok (output ++ leBytes 8 u)
      | none => .err .NumericParse output
    | _ => .err .TypeMismatch output
  | .U128 =>
    match value with
    | .num (.int i) =>
      match tryIntoUnsigned 128 i with
      | some u => .ok (output ++ leBytes 16 u)
      | none => .err .NumericConversion output
    | .str s =>
      match uintFromStr 128 (stripSeparators s.data) with
      | some u => .ok (output ++ leBytes 16 u)
      | none => .err .NumericParse output
    | _ => .err .TypeMismatch output
  | _ => .aborted

mutual

/-- impl EncodeValue for Type (encode.rs lines 37-46): delegates to its
type definition. -/
def Ty.encodeValueTo (registry : RegistryReadOnly) (ty : Ty) (value : Value)
    (output : List Nat) : EncResult :=
  TypeDef.encodeValueTo registry ty.type_def value output
termination_by (sizeOf value, 3)

/-- impl EncodeValue for TypeDef (encode.rs lines 48-62): dispatch per
variant; every variant other than Array, Primitive and Composite hits
unimplemented! and aborts the process. -/
def TypeDef.encodeValueTo (registry : RegistryReadOnly) (td : TypeDef)
    (value : Value) (output : List Nat) : EncResult :=
  match td with
  | .Array a => TypeDefArray.encodeValueTo registry a value output
  | .Primitive p => TypeDefPrimitive.encodeValueTo registry p value output
  | .Composite c => TypeDefComposite.encodeValueTo registry c value output
  | _ => .aborted
termination_by (sizeOf value, 2)

/-- impl EncodeValue for TypeDefArray (encode.rs lines 64-95): resolve the
element type, then either hex-decode a string (only over a u8 element type,
after stripping leading 0x occurrences, each decoded byte appended verbatim
as its u8 encoding) or encode the elements of a sequence in order. -/
def TypeDefArray.encodeValueTo (registry : RegistryReadOnly)
    (a : TypeDefArray) (value : Value) (output : List Nat) : EncResult :=
  match resolve_type registry a.type_param with
  | none => .err .UnknownType output
  | some ty =>
    match value with
    | .str s =>
      if ty.type_def = TypeDef.Primitive .U8 then
        match hexDecodeChars (trimStartMatches0x s.data) with
        | some bytes => .ok (output ++ bytes)
        | none => .err .HexDecodeError output
      else .err .TypeMismatch output
    | .seq values => encodeSeqTo registry ty values output
    | _ => .err .TypeMismatch output
termination_by (sizeOf value, 1)

/-- the element loop of the sequence branch of the array rule: encode each
value against the resolved element type, stopping at the first failure. -/
def encodeSeqTo (registry : RegistryReadOnly) (ty : Ty) (values : List Value)
    (output : List Nat) : EncResult :=
  match values with
  | [] => .ok output
  | v :: rest =>
    match Ty.encodeValueTo registry ty v output with
    | .ok out2 => encodeSeqTo registry ty rest out2
    | r => r
termination_by (sizeOf values, 0)

/-- impl EncodeValue for TypeDefComposite (encode.rs lines 188-207): a map
value is required; its values are zipped positionally with the field list. -/
def TypeDefComposite.encodeValueTo (registry : RegistryReadOnly)
    (c : TypeDefComposite) (value : Value) (output : List Nat) : EncResult :=
  match value with
  | .map entries => encodeZippedTo registry c.fields entries output
  | _ => .err .TypeMismatch output
termination_by (sizeOf value, 1)

/-- the zip loop of the composite rule: fields().iter().zip(map.values()),
consuming only the value of each map entry and stopping at the shorter of
the two lists. -/
def encodeZippedTo (registry : RegistryReadOnly) (fields : List Field)
    (entries : List (Value × Value)) (output : List Nat) : EncResult :=
  match fields, entries with
  | f :: fs, (_, v) :: rest =>
    match Field.encodeValueTo registry f v output with
    | .ok out2 => encodeZippedTo registry fs rest out2
    | r => r
  | _, _ => .ok output
termination_by (sizeOf entries, 0)

/-- impl EncodeValue for Field (encode.rs lines 209-219): resolve the field
type and recurse. -/
def Field.encodeValueTo (registry : RegistryReadOnly) (f : Field)
    (value : Value) (output : List Nat) : EncResult :=
  match resolve_type registry f.ty with
  | none => .err .UnknownType output
  | some ty => Ty.encodeValueTo registry ty value output
termination_by (sizeOf value, 4)

end

/-- the type definition variants that fall into the unimplemented! catch-all
of the dispatch rule. -/
def TypeDef.isUnimplemented : TypeDef → Bool
  | .Array _ => false
  | .Primitive _ => false
  | .Composite _ => false
  | _ => true

/-- the primitive kinds that fall into the unimplemented! catch-all of the
primitive rule: all the signed integer kinds together with the 256-bit
kinds. -/
def primUnimplementedKind : TypeDefPrimitive → Bool
  | .Bool => false
  | .Char => false
  | .Str => false
  | .U8 => false
  | .U16 => false
  | .U32 => false
  | .U64 => false
  | .U128 => false
  | _ => true

/-- byte width of the fixed-width unsigned primitive kinds. -/
def unsignedWidthBytes : TypeDefPrimitive → Option Nat
  | .U8 => some 1
  | .U16 => some 2
  | .U32 => some 4
  | .U64 => some 8
  | .U128 => some 16
  | _ => none

/-- the value shapes accepted by the array rule. -/
def Value.isStrOrSeq : Value → Bool
  | .str _ => true
  | .seq _ => true
  | _ => false

/-- per-element encodings of a sequence, each taken from the empty sink;
defined exactly when every element encodes successfully. -/
def elementEncodings (registry : RegistryReadOnly) (ty : Ty) :
    List Value → Option (List (List Nat))
  | [] => some []
  | v :: vs =>
    match Ty.encodeValueTo registry ty v [], elementEncodings registry ty vs with
    | .ok d, some ds => some (d :: ds)
    | _, _ => none

/-- a small registry used by the concrete witnesses: type id 0 is the u8
primitive, type id 1 is the bool primitive. -/
def regU8Bool : RegistryReadOnly := fun id =>
  if id = 0 then some ⟨TypeDef.Primitive .U8⟩
  else if id = 1 then some ⟨TypeDef.Primitive .Bool⟩
  else none

/-- a fixed-width little-endian encoding has exactly its declared width. -/
theorem leBytes_length (w n : Nat) : (leBytes w n).length = w := by
  induction w generalizing n with
  | zero => simp [leBytes]
  | succ w ih => simp [leBytes, ih]

/-- on in-range values the little-endian bytes determine the value: the
fixed-width encoding neither wraps nor truncates. -/
theorem fromLEBytes_leBytes (w n : Nat) (h : n < 2 ^ (8 * w)) :
    fromLEBytes (leBytes w n) = n := by
  induction w generalizing n with
  | zero =>
    simp [leBytes, fromLEBytes]
    omega
  | succ w ih =>
    have hdiv : n / 256 < 2 ^ (8 * w) := by
      have h256 : (0:Nat) < 256 := by norm_num
      rw [Nat.div_lt_iff_lt_mul h256]
      calc n < 2 ^ (8 * (w + 1)) := h
        _ = 2 ^ (8 * w) * 256 := by ring
    simp [leBytes, fromLEBytes, ih (n / 256) hdiv]
    omega

/-- a hex digit has a value below sixteen. -/
theorem hexDigitVal_lt (c : Char) (d : Nat) (h : hexDigitVal c = some d) :
    d < 16 := by
  unfold hexDigitVal at h
  repeat' split at h
  all_goals first
    | (simp only [Option.some.injEq] at h; omega)
    | simp at h

/-- every byte produced by hex decoding is an actual byte. -/
theorem hexDecodeChars_lt (cs : List Char) (bs : List Nat)
    (h : hexDecodeChars cs = some bs) : ∀ b ∈ bs, b < 256 := by
  induction cs using hexDecodeChars.induct generalizing bs with
  | case1 =>
    simp only [hexDecodeChars, Option.some.injEq] at h
    subst h
    simp
  | case2 c =>
    simp [hexDecodeChars] at h
  | case3 c1 c2 rest hi lo tail htail hlo hhi ih =>
    simp only [hexDecodeChars, hhi, hlo, htail, Option.some.injEq] at h
    subst h
    intro b hb
    rcases List.mem_cons.mp hb with hb | hb
    · have h1 := hexDigitVal_lt c1 hi hhi
      have h2 := hexDigitVal_lt c2 lo hlo
      omega
    · exact ih tail htail b hb
  | case4 c1 c2 rest hfail ih =>
    simp only [hexDecodeChars] at h
    cases hhi : hexDigitVal c1 with
    | none => simp [hhi] at h
    | some hi =>
      cases hlo : hexDigitVal c2 with
      | none => simp [hhi, hlo] at h
      | some lo =>
        cases htail : hexDecodeChars rest with
        | none => simp [hhi, hlo, htail] at h
        | some tail => exact (hfail hi lo tail hhi hlo htail).elim

/-- the unsigned from_str parser only returns values inside the width. -/
theorem uintFromStr_lt (bits : Nat) (cs : List Char) (n : Nat)
    (h : uintFromStr bits cs = some n) : n < 2 ^ bits := by
  unfold uintFromStr at h
  split at h
  · split at h <;> simp_all
  · simp at h

/-- the primitive rule only appends to the sink it receives. -/
theorem TypeDefPrimitive.encodeValueTo_shift (registry : RegistryReadOnly)
    (p : TypeDefPrimitive) (v : Value) (pre out : List Nat) :
    TypeDefPrimitive.encodeValueTo registry p v (pre ++ out)
      = prependBytes pre (TypeDefPrimitive.encodeValueTo registry p v out) := by
  cases p <;> cases v <;>
    (try (rename_i m; cases m)) <;>
    simp only [TypeDefPrimitive.encodeValueTo.eq_def] <;>
    (repeat' split) <;>
    simp_all [prependBytes, List.append_assoc]

/-- joint statement, by strong induction on the size of the value being
encoded: every encoding rule treats the sink as append-only, so running it
on a longer sink just carries the extra prefix through. -/
theorem encode_shift_aux (n : Nat) :
    (∀ registry td v pre out, sizeOf v < n →
       TypeDef.encodeValueTo registry td v (pre ++ out)
         = prependBytes pre (TypeDef.encodeValueTo registry td v out))
  ∧ (∀ registry ty vs pre out, sizeOf vs < n →
       encodeSeqTo registry ty vs (pre ++ out)
         = prependBytes pre (encodeSeqTo registry ty vs out))
  ∧ (∀ registry fs es pre out, sizeOf es < n →
       encodeZippedTo registry fs es (pre ++ out)
         = prependBytes pre (encodeZippedTo registry fs es out)) := by
  induction n with
  | zero =>
    exact ⟨fun _ _ _ _ _ h => absurd h (by omega),
      fun _ _ _ _ _ h => absurd h (by omega),
      fun _ _ _ _ _ h => absurd h (by omega)⟩
  | succ n ih =>
    obtain ⟨ihTD, ihSeq, ihZip⟩ := ih
    refine ⟨?_, ?_, ?_⟩
    · intro registry td v pre out h
      cases td with
      | Array a =>
        simp only [TypeDef.encodeValueTo.eq_def]
        rw [TypeDefArray.encodeValueTo.eq_def, TypeDefArray.encodeValueTo.eq_def]
        cases hres : resolve_type registry a.type_param with
        | none => simp [prependBytes]
        | some ty =>
          cases v with
          | str s =>
            by_cases hU8 : ty.type_def = TypeDef.Primitive .U8
            · cases hdec : hexDecodeChars (trimStartMatches0x s.data) <;>
                simp [hU8, hdec, prependBytes]
            · simp [hU8, prependBytes]
          | seq vs =>
            have hvs : sizeOf vs < n := by
              have := Value.seq.sizeOf_spec vs
              omega
            exact ihSeq registry ty vs pre out hvs
          | bool b => simp [prependBytes]
          | char c => simp [prependBytes]
          | map entries => simp [prependBytes]
          | num m => simp [prependBytes]
          | opt o => simp [prependBytes]
          | unit => simp [prependBytes]
      | Primitive p =>
        simp only [TypeDef.encodeValueTo.eq_def]
        exact TypeDefPrimitive.encodeValueTo_shift registry p v pre out
      | Composite c =>
        simp only [TypeDef.encodeValueTo.eq_def]
        rw [TypeDefComposite.encodeValueTo.eq_def, TypeDefComposite.encodeValueTo.eq_def]
        cases v with
        | map entries =>
          have hes : sizeOf entries < n := by
            have := Value.map.sizeOf_spec entries
            omega
          exact ihZip registry c.fields entries pre out hes
        | bool b => simp [prependBytes]
        | char c2 => simp [prependBytes]
        | num m => simp [prependBytes]
        | opt o => simp [prependBytes]
        | str s => simp [prependBytes]
        | seq vs => simp [prependBytes]
        | unit => simp [prependBytes]
      | Variant => simp [TypeDef.encodeValueTo.eq_def, prependBytes]
      | Sequence tp => simp [TypeDef.encodeValueTo.eq_def, prependBytes]
      | Tuple fs => simp [TypeDef.encodeValueTo.eq_def, prependBytes]
      | Compact tp => simp [TypeDef.encodeValueTo.eq_def, prependBytes]
      | Phantom => simp [TypeDef.encodeValueTo.eq_def, prependBytes]
    · intro registry ty vs pre out h
      cases vs with
      | nil => simp [encodeSeqTo, prependBytes]
      | cons v rest =>
        have hv : sizeOf v < n := by
          have := List.cons.sizeOf_spec v rest
          omega
        have hrest : sizeOf rest < n := by
          have := List.cons.sizeOf_spec v rest
          omega
        rw [encodeSeqTo.eq_2, encodeSeqTo.eq_2]
        have hty : Ty.encodeValueTo registry ty v (pre ++ out)
            = prependBytes pre (Ty.encodeValueTo registry ty v out) := by
          simp only [Ty.encodeValueTo.eq_def]
          exact ihTD registry ty.type_def v pre out hv
        rw [hty]
        cases hr : Ty.encodeValueTo registry ty v out with
        | ok d =>
          simp only [prependBytes]
          exact ihSeq registry ty rest pre d hrest
        | err e d => simp [prependBytes]
        | aborted => simp [prependBytes]
    · intro registry fs es pre out h
      cases fs with
      | nil => simp [encodeZippedTo, prependBytes]
      | cons f frest =>
        cases es with
        | nil => simp [encodeZippedTo, prependBytes]
        | cons kv rest =>
          obtain ⟨k, v⟩ := kv
          have hv : sizeOf v < n := by
            have h1 := List.cons.sizeOf_spec (k, v) rest
            have h2 := Prod.mk.sizeOf_spec k v
            omega
          have hrest : sizeOf rest < n := by
            have h1 := List.cons.sizeOf_spec (k, v) rest
            omega
          rw [encodeZippedTo.eq_1, encodeZippedTo.eq_1]
          have hf : Field.encodeValueTo registry f v (pre ++ out)
              = prependBytes pre (Field.encodeValueTo registry f v out) := by
            simp only [Field.encodeValueTo.eq_def]
            cases hres : resolve_type registry f.ty with
            | none => simp [prependBytes]
            | some ty =>
              simp only [Ty.encodeValueTo.eq_def]
              exact ihTD registry ty.type_def v pre out hv
          rw [hf]
          cases hr : Field.encodeValueTo registry f v out with
          | ok d =>
            simp only [prependBytes]
            exact ihZip registry frest rest pre d hrest
          | err e d => simp [prependBytes]
          | aborted => simp [prependBytes]

/-- append-only sink behaviour of the dispatch rule, closed form. -/
theorem tdEncode_shift (registry : RegistryReadOnly)
    (td : TypeDef) (v : Value) (pre out : List Nat) :
    TypeDef.encodeValueTo registry td v (pre ++ out)
      = prependBytes pre (TypeDef.encodeValueTo registry td v out) :=
  (encode_shift_aux (sizeOf v + 1)).1 registry td v pre out (by omega)

/-- append-only sink behaviour of the type rule, closed form. -/
theorem tyEncode_shift (registry : RegistryReadOnly) (ty : Ty)
    (v : Value) (pre out : List Nat) :
    Ty.encodeValueTo registry ty v (pre ++ out)
      = prependBytes pre (Ty.encodeValueTo registry ty v out) := by
  rw [Ty.encodeValueTo, Ty.encodeValueTo]
  exact tdEncode_shift registry ty.type_def v pre out

/-- running on a sink equals running on the empty sink with the prior
content carried through unchanged in front. -/
theorem tdEncode_baseAppend (registry : RegistryReadOnly)
    (td : TypeDef) (v : Value) (out : List Nat) :
    TypeDef.encodeValueTo registry td v out
      = prependBytes out (TypeDef.encodeValueTo registry td v []) := by
  have h := tdEncode_shift registry td v out []
  simpa using h

/-- same restatement for the type rule. -/
theorem tyEncode_baseAppend (registry : RegistryReadOnly) (ty : Ty)
    (v : Value) (out : List Nat) :
    Ty.encodeValueTo registry ty v out
      = prependBytes out (Ty.encodeValueTo registry ty v []) := by
  have h := tyEncode_shift registry ty v out []
  simpa using h


/-- a nonnegative integer below a power of two stays below it as a Nat. -/
theorem toNat_lt_pow (i : Int) (bits : Nat) (h0 : 0 ≤ i)
    (h1 : i < 2 ^ bits) : i.toNat < 2 ^ bits := by
  have hk : ((2 ^ bits : Nat) : Int) = 2 ^ bits := by push_cast; ring
  omega

/-- behaviour of the checked conversion on both sides of the range test. -/
theorem tryIntoUnsigned_spec (bits : Nat) (i : Int) :
    (0 ≤ i ∧ i < 2 ^ bits →
       tryIntoUnsigned bits i = some i.toNat ∧ i.toNat < 2 ^ bits)
  ∧ (¬ (0 ≤ i ∧ i < 2 ^ bits) → tryIntoUnsigned bits i = none) := by
  constructor
  · intro hin
    constructor
    · unfold tryIntoUnsigned
      rw [if_pos hin]
    · exact toNat_lt_pow i bits hin.1 hin.2
  · intro hout
    unfold tryIntoUnsigned
    rw [if_neg hout]

/-- checked conversion of a Nat cast below the width always succeeds. -/
theorem tryIntoUnsigned_natCast (bits : Nat) (n : Nat) (h : n < 2 ^ bits) :
    tryIntoUnsigned bits (n : Int) = some n := by
  have hk : ((2 ^ bits : Nat) : Int) = 2 ^ bits := by push_cast; ring
  unfold tryIntoUnsigned
  rw [if_pos ⟨by omega, by omega⟩]
  simp

/-- a byte below 256 is its own one-byte little-endian encoding. -/
theorem leBytes_one (b : Nat) (h : b < 256) : leBytes 1 b = [b] := by
  simp [leBytes, Nat.mod_eq_of_lt h]

/-- encoding a sequence of in-range integers against the u8 element type
appends exactly those bytes. -/
theorem encodeSeqTo_u8 (registry : RegistryReadOnly) (bs : List Nat)
    (hbs : ∀ b ∈ bs, b < 256) (out : List Nat) :
    encodeSeqTo registry ⟨TypeDef.Primitive .U8⟩
        (bs.map fun (b : Nat) => Value.num (Number.int (b : Int))) out
      = EncResult.ok (out ++ bs) := by
  induction bs generalizing out with
  | nil => simp [encodeSeqTo]
  | cons b rest ih =>
    have hb : b < 256 := hbs b (List.mem_cons_self b rest)
    have hrest : ∀ x ∈ rest, x < 256 := fun x hx => hbs x (List.mem_cons_of_mem b hx)
    have henc : Ty.encodeValueTo registry ⟨TypeDef.Primitive .U8⟩
        (Value.num (Number.int (b : Int))) out = EncResult.ok (out ++ [b]) := by
      have h8 : b < 2 ^ 8 := by norm_num; omega
      have htry : tryIntoUnsigned 8 (b : Int) = some b :=
        tryIntoUnsigned_natCast 8 b h8
      simp only [Ty.encodeValueTo.eq_def, TypeDef.encodeValueTo.eq_def,
        TypeDefPrimitive.encodeValueTo.eq_def]
      simp only [htry]
      rw [leBytes_one b hb]
    simp only [List.map_cons, encodeSeqTo.eq_2, henc, ih hrest (out ++ [b]),
      List.append_assoc, List.singleton_append]

/-- the zip loop with no fields left returns the sink unchanged. -/
theorem encodeZippedTo_nil_left (registry : RegistryReadOnly)
    (es : List (Value × Value)) (out : List Nat) :
    encodeZippedTo registry [] es out = EncResult.ok out := by
  cases es with
  | nil => simp [encodeZippedTo]
  | cons kv rest =>
    obtain ⟨k, v⟩ := kv
    simp [encodeZippedTo]

/-- the zip loop with no entries left returns the sink unchanged. -/
theorem encodeZippedTo_nil_right (registry : RegistryReadOnly)
    (fs : List Field) (out : List Nat) :
    encodeZippedTo registry fs [] out = EncResult.ok out := by
  cases fs with
  | nil => simp [encodeZippedTo]
  | cons f frest => simp [encodeZippedTo]

/-- the zip loop only looks at the common prefix of the two lists: cutting
each list to the length of the other changes nothing. -/
theorem encodeZippedTo_trunc (registry : RegistryReadOnly) (fs : List Field)
    (es : List (Value × Value)) (out : List Nat) :
    encodeZippedTo registry fs es out
      = encodeZippedTo registry (fs.take es.length) (es.take fs.length) out := by
  induction fs generalizing es out with
  | nil => simp [encodeZippedTo_nil_left]
  | cons f frest ih =>
    cases es with
    | nil => simp [encodeZippedTo_nil_left, encodeZippedTo_nil_right]
    | cons kv rest =>
      obtain ⟨k, v⟩ := kv
      simp only [List.length_cons, List.take_succ_cons]
      rw [encodeZippedTo.eq_1, encodeZippedTo.eq_1]
      cases hr : Field.encodeValueTo registry f v out with
      | ok d => exact ih rest d
      | err e d => rfl
      | aborted => rfl


/-- when every element encodes, the sequence loop appends exactly the
concatenation of the per-element encodings, in order, with no framing. -/
theorem encodeSeqTo_concat (registry : RegistryReadOnly) (ty : Ty)
    (vs : List Value) (ds : List (List Nat))
    (h : elementEncodings registry ty vs = some ds) (out : List Nat) :
    encodeSeqTo registry ty vs out = EncResult.ok (out ++ ds.flatten) := by
  induction vs generalizing ds out with
  | nil =>
    simp only [elementEncodings, Option.some.injEq] at h
    subst h
    simp [encodeSeqTo]
  | cons v rest ih =>
    simp only [elementEncodings] at h
    cases hv : Ty.encodeValueTo registry ty v [] with
    | ok d =>
      rw [hv] at h
      cases hrest : elementEncodings registry ty rest with
      | none => rw [hrest] at h; simp at h
      | some ds2 =>
        rw [hrest] at h
        simp only [Option.some.injEq] at h
        subst h
        have hvout : Ty.encodeValueTo registry ty v out
            = EncResult.ok (out ++ d) := by
          rw [tyEncode_baseAppend registry ty v out, hv]
          rfl
        simp only [encodeSeqTo.eq_2, hvout, ih ds2 hrest (out ++ d),
          List.flatten_cons, List.append_assoc]
    | err e d => rw [hv] at h; simp at h
    | aborted => rw [hv] at h; simp at h


/-- generic shape of the five fixed-width unsigned integer branches of the
primitive rule: the branch appends the little-endian bytes on an in-range
value and fails with NumericConversion otherwise. -/
theorem uintBranchSpec (registry : RegistryReadOnly) (bits w : Nat)
    (hbw : bits = 8 * w) (p : TypeDefPrimitive) (i : Int) (out : List Nat)
    (hbranch : ∀ o : List Nat,
      TypeDefPrimitive.encodeValueTo registry p (Value.num (Number.int i)) o
        = (match tryIntoUnsigned bits i with
           | some u => EncResult.ok (o ++ leBytes w u)
           | none => EncResult.err EncodeError.NumericConversion o)) :
    (0 ≤ i ∧ i < 2 ^ (8 * w) →
       TypeDefPrimitive.encodeValueTo registry p (Value.num (Number.int i)) out
           = EncResult.ok (out ++ leBytes w i.toNat)
       ∧ (leBytes w i.toNat).length = w
       ∧ fromLEBytes (leBytes w i.toNat) = i.toNat)
  ∧ (¬ (0 ≤ i ∧ i < 2 ^ (8 * w)) →
       TypeDefPrimitive.encodeValueTo registry p (Value.num (Number.int i)) out
           = EncResult.err EncodeError.NumericConversion out) := by
  subst hbw
  constructor
  · intro hin
    obtain ⟨htry, hlt⟩ := (tryIntoUnsigned_spec (8 * w) i).1 hin
    refine ⟨?_, leBytes_length w i.toNat, fromLEBytes_leBytes w i.toNat hlt⟩
    rw [hbranch out, htry]
  · intro hout
    have htry := (tryIntoUnsigned_spec (8 * w) i).2 hout
    rw [hbranch out, htry]

/-- Claim C1, counterexample to the claim as stated: invoking encode with a
tuple type definition does not return an UnsupportedType error to the
caller — the unimplemented! catch-all aborts the process instead. -/
theorem C1_claim_counterexample :
    TypeDef.encodeValueTo (fun _ => none) (TypeDef.Tuple []) Value.unit []
        = EncResult.aborted
  ∧ TypeDef.encodeValueTo (fun _ => none) (TypeDef.Tuple []) Value.unit []
        ≠ EncResult.err EncodeError.UnsupportedType [] := by
  have h : TypeDef.encodeValueTo (fun _ => none) (TypeDef.Tuple []) Value.unit []
      = EncResult.aborted := by
    simp [TypeDef.encodeValueTo.eq_def]
  exact ⟨h, by rw [h]; exact fun hc => EncResult.noConfusion hc⟩

/-- Claim C1 amended: for every registry, value and sink, invoking encode
with a type definition variant other than Primitive, Array and Composite
(tuple, enum or variant, sequence, compact, phantom), or invoking the
primitive rule with an unimplemented kind (all the signed integer kinds
among them), encodes nothing and aborts the whole process through the
unimplemented! macro rather than returning an UnsupportedType error; only
the char primitive kind returns an error to the caller (the UnsupportedType
category). -/
theorem C1_unimplemented_aborts (registry : RegistryReadOnly) (v : Value)
    (out : List Nat) :
    (∀ td : TypeDef, TypeDef.isUnimplemented td = true →
       TypeDef.encodeValueTo registry td v out = EncResult.aborted)
  ∧ (∀ p : TypeDefPrimitive, primUnimplementedKind p = true →
       TypeDefPrimitive.encodeValueTo registry p v out = EncResult.aborted)
  ∧ TypeDefPrimitive.encodeValueTo registry TypeDefPrimitive.Char v out
      = EncResult.err EncodeError.UnsupportedType out := by
  refine ⟨?_, ?_, ?_⟩
  · intro td htd
    cases td <;> simp_all [TypeDef.isUnimplemented, TypeDef.encodeValueTo.eq_def]
  · intro p hp
    cases p <;>
      simp_all [primUnimplementedKind, TypeDefPrimitive.encodeValueTo.eq_def]
  · simp [TypeDefPrimitive.encodeValueTo.eq_def]

/-- concrete instance of the amended claim C1: the enum and the signed
32-bit kinds abort. -/
theorem C1_unimplemented_aborts_witness :
    TypeDef.encodeValueTo (fun _ => none) TypeDef.Variant Value.unit []
        = EncResult.aborted
  ∧ TypeDefPrimitive.encodeValueTo (fun _ => none) TypeDefPrimitive.I32
        Value.unit [] = EncResult.aborted :=
  ⟨(C1_unimplemented_aborts (fun _ => none) Value.unit []).1 TypeDef.Variant rfl,
   (C1_unimplemented_aborts (fun _ => none) Value.unit []).2.1
     TypeDefPrimitive.I32 rfl⟩

/-- Claim C2: for every fixed-width unsigned primitive kind (U8, U16, U32,
U64, U128) and every in-range integer value, encoding appends exactly the
documented number of little-endian bytes (1, 2, 4, 8, 16 respectively),
and those bytes decode back to the same value; every out-of-range integer
value (negative values included) fails with NumericConversion, so a value
is never wrapped or truncated. -/
theorem C2_fixed_width_unsigned (registry : RegistryReadOnly)
    (p : TypeDefPrimitive) (w : Nat) (hw : unsignedWidthBytes p = some w)
    (i : Int) (out : List Nat) :
    (0 ≤ i ∧ i < 2 ^ (8 * w) →
       TypeDefPrimitive.encodeValueTo registry p (Value.num (Number.int i)) out
           = EncResult.ok (out ++ leBytes w i.toNat)
       ∧ (leBytes w i.toNat).length = w
       ∧ fromLEBytes (leBytes w i.toNat) = i.toNat)
  ∧ (¬ (0 ≤ i ∧ i < 2 ^ (8 * w)) →
       TypeDefPrimitive.encodeValueTo registry p (Value.num (Number.int i)) out
           = EncResult.err EncodeError.NumericConversion out) := by
  cases p
  case U8 =>
    have hw1 : w = 1 := by simpa [unsignedWidthBytes] using hw.symm
    subst hw1
    exact uintBranchSpec registry 8 1 (by norm_num) TypeDefPrimitive.U8 i out
      (fun o => by simp [TypeDefPrimitive.encodeValueTo.eq_def])
  case U16 =>
    have hw1 : w = 2 := by simpa [unsignedWidthBytes] using hw.symm
    subst hw1
    exact uintBranchSpec registry 16 2 (by norm_num) TypeDefPrimitive.U16 i out
      (fun o => by simp [TypeDefPrimitive.encodeValueTo.eq_def])
  case U32 =>
    have hw1 : w = 4 := by simpa [unsignedWidthBytes] using hw.symm
    subst hw1
    exact uintBranchSpec registry 32 4 (by norm_num) TypeDefPrimitive.U32 i out
      (fun o => by simp [TypeDefPrimitive.encodeValueTo.eq_def])
  case U64 =>
    have hw1 : w = 8 := by simpa [unsignedWidthBytes] using hw.symm
    subst hw1
    exact uintBranchSpec registry 64 8 (by norm_num) TypeDefPrimitive.U64 i out
      (fun o => by simp [TypeDefPrimitive.encodeValueTo.eq_def])
  case U128 =>
    have hw1 : w = 16 := by simpa [unsignedWidthBytes] using hw.symm
    subst hw1
    exact uintBranchSpec registry 128 16 (by norm_num) TypeDefPrimitive.U128 i out
      (fun o => by simp [TypeDefPrimitive.encodeValueTo.eq_def])
  all_goals exact absurd hw (by simp [unsignedWidthBytes])

/-- concrete instance of claim C2: 300 encodes as two little-endian bytes
for U16, while -1 is rejected with NumericConversion. -/
theorem C2_fixed_width_unsigned_witness :
    TypeDefPrimitive.encodeValueTo (fun _ => none) TypeDefPrimitive.U16
        (Value.num (Number.int 300)) [] = EncResult.ok [44, 1]
  ∧ TypeDefPrimitive.encodeValueTo (fun _ => none) TypeDefPrimitive.U16
        (Value.num (Number.int (-1))) []
      = EncResult.err EncodeError.NumericConversion [] := by
  constructor
  · have h := (C2_fixed_width_unsigned (fun _ => none) TypeDefPrimitive.U16 2
        rfl 300 []).1 (by norm_num)
    have hle : leBytes 2 (Int.toNat 300) = [44, 1] := by decide
    simpa [hle] using h.1
  · exact (C2_fixed_width_unsigned (fun _ => none) TypeDefPrimitive.U16 2
      rfl (-1) []).2 (by norm_num)

/-- Claim C3: for a composite with schema fields of type u8 then bool, and a
map value whose values in order are the integer 7 and the boolean true, the
encoding succeeds and appends exactly the bytes 07 01, for every choice of
map keys and of field names: keys are never matched against field names. -/
theorem C3_composite_positional (registry : RegistryReadOnly) (ta tb : Nat)
    (hta : resolve_type registry ta = some ⟨TypeDef.Primitive .U8⟩)
    (htb : resolve_type registry tb = some ⟨TypeDef.Primitive .Bool⟩)
    (na nb : Option String) (k1 k2 : Value) (out : List Nat) :
    TypeDef.encodeValueTo registry (TypeDef.Composite ⟨[⟨na, ta⟩, ⟨nb, tb⟩]⟩)
        (Value.map [(k1, Value.num (Number.int 7)), (k2, Value.bool true)]) out
      = EncResult.ok (out ++ [7, 1]) := by
  have h1 : Field.encodeValueTo registry ⟨na, ta⟩ (Value.num (Number.int 7)) out
      = EncResult.ok (out ++ [7]) := by
    have htry : tryIntoUnsigned 8 7 = some 7 := by decide
    have hle : leBytes 1 7 = [7] := by decide
    simp only [Field.encodeValueTo.eq_def, hta]
    simp only [Ty.encodeValueTo.eq_def, TypeDef.encodeValueTo.eq_def,
      TypeDefPrimitive.encodeValueTo.eq_def]
    simp [htry, hle]
  have h2 : Field.encodeValueTo registry ⟨nb, tb⟩ (Value.bool true) (out ++ [7])
      = EncResult.ok ((out ++ [7]) ++ [1]) := by
    simp only [Field.encodeValueTo.eq_def, htb]
    simp [Ty.encodeValueTo.eq_def, TypeDef.encodeValueTo.eq_def,
      TypeDefPrimitive.encodeValueTo.eq_def]
  simp only [TypeDef.encodeValueTo.eq_def, TypeDefComposite.encodeValueTo.eq_1]
  simp only [encodeZippedTo.eq_1, h1]
  simp only [encodeZippedTo.eq_1, h2]
  simp [encodeZippedTo_nil_right]

/-- concrete instance of claim C3, with map keys unrelated to the field
names. -/
theorem C3_composite_positional_witness :
    TypeDef.encodeValueTo regU8Bool
        (TypeDef.Composite ⟨[⟨some ("a"), 0⟩, ⟨some ("b"), 1⟩]⟩)
        (Value.map [(Value.str ("x"), Value.num (Number.int 7)),
                    (Value.str ("y"), Value.bool true)]) []
      = EncResult.ok [7, 1] := by
  have h := C3_composite_positional regU8Bool 0 1 rfl rfl (some ("a"))
      (some ("b")) (Value.str ("x")) (Value.str ("y")) []
  simpa using h

/-- the U64 string branch of the primitive rule in closed form. -/
theorem u64StrBranch (registry : RegistryReadOnly) (s : String)
    (out : List Nat) :
    TypeDefPrimitive.encodeValueTo registry .U64 (Value.str s) out
        = (match uintFromStr 64 (stripSeparators s.data) with
           | some u => EncResult.ok (out ++ leBytes 8 u)
           | none => EncResult.err EncodeError.NumericParse out) := by
  simp only [TypeDefPrimitive.encodeValueTo.eq_def]

/-- the U128 string branch of the primitive rule in closed form. -/
theorem u128StrBranch (registry : RegistryReadOnly) (s : String)
    (out : List Nat) :
    TypeDefPrimitive.encodeValueTo registry .U128 (Value.str s) out
        = (match uintFromStr 128 (stripSeparators s.data) with
           | some u => EncResult.ok (out ++ leBytes 16 u)
           | none => EncResult.err EncodeError.NumericParse out) := by
  simp only [TypeDefPrimitive.encodeValueTo.eq_def]

/-- the U64 integer branch of the primitive rule in closed form. -/
theorem u64IntBranch (registry : RegistryReadOnly) (i : Int)
    (out : List Nat) :
    TypeDefPrimitive.encodeValueTo registry .U64 (Value.num (Number.int i)) out
        = (match tryIntoUnsigned 64 i with
           | some u => EncResult.ok (out ++ leBytes 8 u)
           | none => EncResult.err EncodeError.NumericConversion out) := by
  simp only [TypeDefPrimitive.encodeValueTo.eq_def]

/-- the U128 integer branch of the primitive rule in closed form. -/
theorem u128IntBranch (registry : RegistryReadOnly) (i : Int)
    (out : List Nat) :
    TypeDefPrimitive.encodeValueTo registry .U128
        (Value.num (Number.int i)) out
        = (match tryIntoUnsigned 128 i with
           | some u => EncResult.ok (out ++ leBytes 16 u)
           | none => EncResult.err EncodeError.NumericConversion out) := by
  simp only [TypeDefPrimitive.encodeValueTo.eq_def]

/-- Claim C4: for the U64 and the U128 kinds, a decimal string whose
separator-stripped form parses to a value encodes byte for byte like the
equivalent plain integer value; a string that does not parse as an unsigned
decimal after stripping the underscore and comma separators fails with
NumericParse. -/
theorem C4_string_integer_agreement (registry : RegistryReadOnly) (s : String)
    (out : List Nat) :
    (∀ n : Nat, uintFromStr 64 (stripSeparators s.data) = some n →
       TypeDefPrimitive.encodeValueTo registry .U64 (Value.str s) out
           = EncResult.ok (out ++ leBytes 8 n)
       ∧ TypeDefPrimitive.encodeValueTo registry .U64
             (Value.num (Number.int (n : Int))) out
           = EncResult.ok (out ++ leBytes 8 n))
  ∧ (uintFromStr 64 (stripSeparators s.data) = none →
       TypeDefPrimitive.encodeValueTo registry .U64 (Value.str s) out
           = EncResult.err EncodeError.NumericParse out)
  ∧ (∀ n : Nat, uintFromStr 128 (stripSeparators s.data) = some n →
       TypeDefPrimitive.encodeValueTo registry .U128 (Value.str s) out
           = EncResult.ok (out ++ leBytes 16 n)
       ∧ TypeDefPrimitive.encodeValueTo registry .U128
             (Value.num (Number.int (n : Int))) out
           = EncResult.ok (out ++ leBytes 16 n))
  ∧ (uintFromStr 128 (stripSeparators s.data) = none →
       TypeDefPrimitive.encodeValueTo registry .U128 (Value.str s) out
           = EncResult.err EncodeError.NumericParse out) := by
  refine ⟨?_, ?_, ?_, ?_⟩
  · intro n hn
    have hlt := uintFromStr_lt 64 (stripSeparators s.data) n hn
    have htry := tryIntoUnsigned_natCast 64 n hlt
    exact ⟨by rw [u64StrBranch, hn], by rw [u64IntBranch, htry]⟩
  · intro hn
    rw [u64StrBranch, hn]
  · intro n hn
    have hlt := uintFromStr_lt 128 (stripSeparators s.data) n hn
    have htry := tryIntoUnsigned_natCast 128 n hlt
    exact ⟨by rw [u128StrBranch, hn], by rw [u128IntBranch, htry]⟩
  · intro hn
    rw [u128StrBranch, hn]

/-- concrete instance of claim C4: the separator-decorated string and the
plain integer one million produce the same eight little-endian bytes. -/
theorem C4_string_integer_agreement_witness :
    TypeDefPrimitive.encodeValueTo (fun _ => none) TypeDefPrimitive.U64
        (Value.str ("1_000_000")) []
      = EncResult.ok [64, 66, 15, 0, 0, 0, 0, 0]
  ∧ TypeDefPrimitive.encodeValueTo (fun _ => none) TypeDefPrimitive.U64
        (Value.num (Number.int 1000000)) []
      = EncResult.ok [64, 66, 15, 0, 0, 0, 0, 0] := by
  have h := (C4_string_integer_agreement (fun _ => none) ("1_000_000") []).1
      1000000 (by decide)
  have hle : leBytes 8 1000000 = [64, 66, 15, 0, 0, 0, 0, 0] := by decide
  constructor
  · simpa [hle] using h.1
  · simpa [hle] using h.2

/-- Claim C5: over an array whose resolved element type is the u8 primitive,
a hex string decodes to the same appended bytes as the equivalent explicit
sequence of small integers: both forms are byte-identical. -/
theorem C5_hex_seq_agreement (registry : RegistryReadOnly) (a : TypeDefArray)
    (hres : resolve_type registry a.type_param = some ⟨TypeDef.Primitive .U8⟩)
    (s : String) (bs : List Nat)
    (hdec : hexDecodeChars (trimStartMatches0x s.data) = some bs)
    (out : List Nat) :
    TypeDefArray.encodeValueTo registry a (Value.str s) out
        = EncResult.ok (out ++ bs)
  ∧ TypeDefArray.encodeValueTo registry a
        (Value.seq (bs.map fun (b : Nat) => Value.num (Number.int (b : Int))))
        out
      = EncResult.ok (out ++ bs) := by
  constructor
  · simp [TypeDefArray.encodeValueTo.eq_def, hres, hdec]
  · simp only [TypeDefArray.encodeValueTo.eq_def, hres]
    exact encodeSeqTo_u8 registry bs (hexDecodeChars_lt _ bs hdec) out

/-- concrete instance of claim C5: the hex string 0x0102ff and the sequence
1, 2, 255 both append exactly the bytes 01 02 FF. -/
theorem C5_hex_seq_agreement_witness :
    TypeDefArray.encodeValueTo regU8Bool ⟨3, 0⟩ (Value.str ("0x0102ff")) []
        = EncResult.ok [1, 2, 255]
  ∧ TypeDefArray.encodeValueTo regU8Bool ⟨3, 0⟩
        (Value.seq [Value.num (Number.int 1), Value.num (Number.int 2),
                    Value.num (Number.int 255)]) []
      = EncResult.ok [1, 2, 255] := by
  have h := C5_hex_seq_agreement regU8Bool ⟨3, 0⟩ rfl ("0x0102ff")
      [1, 2, 255] (by decide) []
  constructor
  · simpa using h.1
  · have h2 := h.2
    norm_num [List.map_cons] at h2
    convert h2 using 3

/-- Claim C6: the composite rule zips the schema field list with the map
value sequence and stops at the shorter of the two: the result only depends
on the common prefix, so extra fields or extra entries are silently ignored,
and in particular an empty map against any composite (or any map against an
empty composite) succeeds and appends zero bytes. -/
theorem C6_zip_shorter (registry : RegistryReadOnly) (c : TypeDefComposite)
    (entries : List (Value × Value)) (out : List Nat) :
    TypeDefComposite.encodeValueTo registry c (Value.map entries) out
        = TypeDefComposite.encodeValueTo registry
            ⟨c.fields.take entries.length⟩
            (Value.map (entries.take c.fields.length)) out
  ∧ TypeDefComposite.encodeValueTo registry c (Value.map []) out
        = EncResult.ok out
  ∧ TypeDefComposite.encodeValueTo registry ⟨[]⟩ (Value.map entries) out
        = EncResult.ok out := by
  refine ⟨?_, ?_, ?_⟩
  · simp only [TypeDefComposite.encodeValueTo.eq_1]
    exact encodeZippedTo_trunc registry c.fields entries out
  · simp only [TypeDefComposite.encodeValueTo.eq_1]
    exact encodeZippedTo_nil_right registry c.fields out
  · simp only [TypeDefComposite.encodeValueTo.eq_1]
    exact encodeZippedTo_nil_left registry entries out

/-- Claim C7: for every array type and sequence value whose elements all
encode, the appended output is exactly the concatenation, in sequence order,
of the per-element encodings against the resolved element type, with no
length prefix, separator or framing added by the array rule. -/
theorem C7_array_concatenation (registry : RegistryReadOnly)
    (a : TypeDefArray) (ty : Ty)
    (hres : resolve_type registry a.type_param = some ty)
    (vs : List Value) (ds : List (List Nat))
    (henc : elementEncodings registry ty vs = some ds) (out : List Nat) :
    TypeDefArray.encodeValueTo registry a (Value.seq vs) out
      = EncResult.ok (out ++ ds.flatten) := by
  simp only [TypeDefArray.encodeValueTo.eq_def, hres]
  exact encodeSeqTo_concat registry ty vs ds henc out

/-- concrete instance of claim C7: two u8 elements concatenate with no
framing. -/
theorem C7_array_concatenation_witness :
    TypeDefArray.encodeValueTo regU8Bool ⟨2, 0⟩
        (Value.seq [Value.num (Number.int 1), Value.num (Number.int 2)]) []
      = EncResult.ok [1, 2] := by
  have t1 : tryIntoUnsigned 8 1 = some 1 := by decide
  have t2 : tryIntoUnsigned 8 2 = some 2 := by decide
  have l1 : leBytes 1 1 = [1] := by decide
  have l2 : leBytes 1 2 = [2] := by decide
  have henc : elementEncodings regU8Bool ⟨TypeDef.Primitive .U8⟩
      [Value.num (Number.int 1), Value.num (Number.int 2)]
        = some [[1], [2]] := by
    simp [elementEncodings, Ty.encodeValueTo.eq_def, TypeDef.encodeValueTo.eq_def,
      TypeDefPrimitive.encodeValueTo.eq_def, t1, t2, l1, l2]
  have h := C7_array_concatenation regU8Bool ⟨2, 0⟩ ⟨TypeDef.Primitive .U8⟩ rfl
      [Value.num (Number.int 1), Value.num (Number.int 2)] [[1], [2]] henc []
  simpa using h

/-- Claim C8: every encode call, whatever its outcome, leaves the sink equal
to its prior content followed by some appended suffix — bytes written before
a failure are never removed, rewound or rolled back (an abort never returns
at all). -/
theorem C8_append_only (registry : RegistryReadOnly) (td : TypeDef)
    (v : Value) (out : List Nat) :
    (∃ d, TypeDef.encodeValueTo registry td v out = EncResult.ok (out ++ d))
  ∨ (∃ e d, TypeDef.encodeValueTo registry td v out
        = EncResult.err e (out ++ d))
  ∨ TypeDef.encodeValueTo registry td v out = EncResult.aborted := by
  have h := tdEncode_baseAppend registry td v out
  cases hr : TypeDef.encodeValueTo registry td v [] with
  | ok d => exact Or.inl ⟨d, by rw [h, hr]; rfl⟩
  | err e d => exact Or.inr (Or.inl ⟨e, d, by rw [h, hr]; rfl⟩)
  | aborted => exact Or.inr (Or.inr (by rw [h, hr]; rfl))

/-- Claim C9: the array rule fails with TypeMismatch on a string value
whenever the resolved element type is not exactly the u8 primitive, fails
with HexDecodeError on a string with non-hexadecimal content over a u8
element type, and fails with TypeMismatch on every value that is neither a
string nor a sequence. -/
theorem C9_array_errors (registry : RegistryReadOnly) (a : TypeDefArray)
    (ty : Ty) (hres : resolve_type registry a.type_param = some ty)
    (out : List Nat) :
    (∀ s : String, ty.type_def ≠ TypeDef.Primitive .U8 →
       TypeDefArray.encodeValueTo registry a (Value.str s) out
           = EncResult.err EncodeError.TypeMismatch out)
  ∧ (∀ s : String, ty.type_def = TypeDef.Primitive .U8 →
       hexDecodeChars (trimStartMatches0x s.data) = none →
       TypeDefArray.encodeValueTo registry a (Value.str s) out
           = EncResult.err EncodeError.HexDecodeError out)
  ∧ (∀ v : Value, Value.isStrOrSeq v = false →
       TypeDefArray.encodeValueTo registry a v out
           = EncResult.err EncodeError.TypeMismatch out) := by
  refine ⟨?_, ?_, ?_⟩
  · intro s hne
    simp [TypeDefArray.encodeValueTo.eq_def, hres, hne]
  · intro s heq hdec
    simp [TypeDefArray.encodeValueTo.eq_def, hres, heq, hdec]
  · intro v hv
    cases v <;>
      simp_all [TypeDefArray.encodeValueTo.eq_def, hres, Value.isStrOrSeq]

/-- concrete instance of claim C9: a hex string over a bool element type, a
non-hex string over a u8 element type, and a bool value. -/
theorem C9_array_errors_witness :
    TypeDefArray.encodeValueTo regU8Bool ⟨2, 1⟩ (Value.str ("ff")) []
        = EncResult.err EncodeError.TypeMismatch []
  ∧ TypeDefArray.encodeValueTo regU8Bool ⟨2, 0⟩ (Value.str ("zz")) []
        = EncResult.err EncodeError.HexDecodeError []
  ∧ TypeDefArray.encodeValueTo regU8Bool ⟨2, 0⟩ (Value.bool true) []
        = EncResult.err EncodeError.TypeMismatch [] := by
  refine ⟨?_, ?_, ?_⟩
  · exact (C9_array_errors regU8Bool ⟨2, 1⟩ ⟨TypeDef.Primitive .Bool⟩ rfl []).1
      ("ff") (by decide)
  · exact (C9_array_errors regU8Bool ⟨2, 0⟩ ⟨TypeDef.Primitive .U8⟩ rfl []).2.1
      ("zz") rfl (by decide)
  · exact (C9_array_errors regU8Bool ⟨2, 0⟩ ⟨TypeDef.Primitive .U8⟩ rfl []).2.2
      (Value.bool true) rfl

/-- Claim C10: the prefix stripping before hex decoding removes every
repeated leading occurrence of 0x, not just one — 0x0x01ff is accepted and
encodes as the bytes 01 FF rather than failing with HexDecodeError, and the
string 0x alone, like the empty string, succeeds and appends zero bytes. -/
theorem C10_repeated_prefix_strip (registry : RegistryReadOnly)
    (a : TypeDefArray)
    (hres : resolve_type registry a.type_param = some ⟨TypeDef.Primitive .U8⟩)
    (out : List Nat) :
    TypeDefArray.encodeValueTo registry a (Value.str ("0x0x01ff")) out
        = EncResult.ok (out ++ [1, 255])
  ∧ TypeDefArray.encodeValueTo registry a (Value.str ("0x")) out
        = EncResult.ok out
  ∧ TypeDefArray.encodeValueTo registry a (Value.str ("")) out
        = EncResult.ok out
  ∧ ∀ cs : List Char,
      trimStartMatches0x ('0' :: 'x' :: cs) = trimStartMatches0x cs := by
  refine ⟨?_, ?_, ?_, ?_⟩
  · have hdec : hexDecodeChars (trimStartMatches0x (String.data ("0x0x01ff")))
        = some [1, 255] := by decide
    simp [TypeDefArray.encodeValueTo.eq_def, hres, hdec]
  · have hdec : hexDecodeChars (trimStartMatches0x (String.data ("0x")))
        = some [] := by decide
    simp [TypeDefArray.encodeValueTo.eq_def, hres, hdec]
  · have hdec : hexDecodeChars (trimStartMatches0x (String.data ("")))
        = some [] := by decide
    simp [TypeDefArray.encodeValueTo.eq_def, hres, hdec]
  · intro cs
    rfl

/-- concrete instance of claim C10: the doubled prefix is fully stripped. -/
theorem C10_repeated_prefix_strip_witness :
    TypeDefArray.encodeValueTo regU8Bool ⟨2, 0⟩ (Value.str ("0x0x01ff")) []
        = EncResult.ok [1, 255] := by
  have h := (C10_repeated_prefix_strip regU8Bool ⟨2, 0⟩ rfl []).1
  simpa using h

end CargoContract
